import Mathlib

/-!
Verification of the relationship-extraction and diagram-generation pipeline
of the rust-arch-visualizer crate.

Strings are modelled as `List Char` (`Str`).  Rust's `str::replace` with a
two- or three-character pattern and a one-character replacement is modelled
by the structurally recursive `replace2` / `replace3` (left-to-right,
non-overlapping, the replacement is not rescanned — exactly `str::replace`'s
semantics).  `HashMap<String, V>` is modelled as an association list
`List (Str × V)` in iteration order, with `extend` = append and lookup
taking the latest binding (last-write-wins, as `HashMap::extend`);
`HashSet<String>` is modelled as a `List Str` whose order stands for the
set's iteration order.  Rust's `split_whitespace` is modelled over ASCII
whitespace (`Char.isWhitespace`), which covers every string the pipeline
produces.
-/

abbrev Str := List Char

/-- Two colons, the `::` path separator. -/
def colon2 : Str := [':', ':']

/-- Replace every occurrence of the two-character pattern `[a, b]` by the
single character `d`, scanning left to right without overlap
(`str::replace("ab", "d")`). -/
def replace2 (a b d : Char) : Str → Str
  | [] => []
  | [c] => [c]
  | c1 :: c2 :: t =>
    if c1 = a ∧ c2 = b then d :: replace2 a b d t
    else c1 :: replace2 a b d (c2 :: t)

/-- Replace every occurrence of the three-character pattern `[a, b, c]` by the
single character `d` (`str::replace("abc", "d")`). -/
def replace3 (a b c d : Char) : Str → Str
  | x1 :: x2 :: x3 :: t =>
    if x1 = a ∧ x2 = b ∧ x3 = c then d :: replace3 a b c d t
    else x1 :: replace3 a b c d (x2 :: x3 :: t)
  | s => s

/-- Split on the two-character separator `[a, b]` (`str::split("ab")`):
always returns at least one (possibly empty) segment. -/
def splitOn2 (a b : Char) : Str → List Str
  | [] => [[]]
  | [c] => [[c]]
  | c1 :: c2 :: t =>
    if c1 = a ∧ c2 = b then [] :: splitOn2 a b t
    else
      match splitOn2 a b (c2 :: t) with
      | [] => [[c1]]
      | seg :: rest => (c1 :: seg) :: rest

/-- Does `p` occur as a contiguous substring of `s`? -/
def containsSub (p : Str) : Str → Bool
  | [] => p.isEmpty
  | c :: t => p.isPrefixOf (c :: t) || containsSub p t

/-- The last `::`-delimited segment (`s.split("::").last().unwrap_or(s)`). -/
def simpleNameL (s : Str) : Str := (splitOn2 ':' ':' s).getLastD s

/-- The prefix of `s` before the last occurrence of `::`, when there is one
(`s.rfind("::")` followed by slicing). -/
def prefixBeforeLastSS : Str → Option Str
  | [] => none
  | c :: t =>
    match prefixBeforeLastSS t with
    | some p => some (c :: p)
    | none => if c = ':' ∧ t.head? = some ':' then some [] else none

/-- `rfind("::")`-based parent module: the part before the last `::`, or the
empty string (`MermaidGenerator::get_parent_module`). -/
def get_parent_module (full_name : Str) : Str :=
  (prefixBeforeLastSS full_name).getD []

/-- Drop trailing characters satisfying `f` (the right half of
`trim_matches`). -/
def dropTrailing (f : Char → Bool) : Str → Str
  | [] => []
  | c :: t =>
    match dropTrailing f t with
    | [] => if f c then [] else [c]
    | t' => c :: t'

/-- `str::trim_matches('_')`. -/
def trimUnderscores (s : Str) : Str :=
  dropTrailing (fun c => c == '_') (s.dropWhile (fun c => c == '_'))

/-- `str::trim()`. -/
def trimWs (s : Str) : Str :=
  dropTrailing Char.isWhitespace (s.dropWhile Char.isWhitespace)

/-- Accumulator-based worker for `splitWs`. -/
def splitWsAux : Str → Str → List Str
  | [], acc => if acc.isEmpty then [] else [acc.reverse]
  | c :: t, acc =>
    if c.isWhitespace then
      if acc.isEmpty then splitWsAux t [] else acc.reverse :: splitWsAux t []
    else splitWsAux t (c :: acc)

/-- `str::split_whitespace`: maximal runs of non-whitespace characters. -/
def splitWs (s : Str) : List Str := splitWsAux s []

/-- Lookup in an association list modelling a `HashMap`: the latest binding
for the key wins, matching `HashMap::insert`/`extend` overwrite semantics. -/
def alistLookup {α : Type} (m : List (Str × α)) (k : Str) : Option α :=
  match m with
  | [] => none
  | p :: rest =>
    match alistLookup rest k with
    | some v => some v
    | none => if p.1 = k then some p.2 else none

/-! ## The data model (`models/types.rs`) -/

inductive Visibility
  | Public
  | Crate
  | Super
  | Private
deriving DecidableEq

structure StructField where
  name : Option Str
  ty : Str
  visibility : Visibility
deriving DecidableEq

structure EnumVariant where
  name : Str
  fields : List StructField
  discriminant : Option Str
deriving DecidableEq

inductive MethodReceiver
  | SelfValue
  | SelfRef
  | SelfMutRef
deriving DecidableEq

structure Method where
  name : Str
  visibility : Visibility
  is_async : Bool
  receiver : Option MethodReceiver
  params : List Str
  return_type : Option Str
deriving DecidableEq

structure StructDef where
  name : Str
  visibility : Visibility
  fields : List StructField
  generics : List Str
  is_tuple : Bool
  module_path : Str
deriving DecidableEq

structure EnumDef where
  name : Str
  visibility : Visibility
  variants : List EnumVariant
  generics : List Str
  module_path : Str
deriving DecidableEq

structure TraitDef where
  name : Str
  visibility : Visibility
  methods : List Method
  generics : List Str
  super_traits : List Str
  module_path : Str
deriving DecidableEq

structure ImplBlock where
  self_type : Str
  trait_name : Option Str
  methods : List Method
  generics : List Str
  module_path : Str
deriving DecidableEq

structure FunctionDef where
  name : Str
  visibility : Visibility
  is_async : Bool
  params : List Str
  return_type : Option Str
  calls : List Str
  module_path : Str
deriving DecidableEq

structure UseDef where
  path : Str
  alias_ : Option Str
  visibility : Visibility
deriving DecidableEq

structure ModuleDef where
  name : Str
  visibility : Visibility
  path : Str
  submodules : List Str
  uses : List UseDef
deriving DecidableEq

inductive RelationType
  | Implements
  | Contains
  | Calls
  | DependsOn
  | Extends
  | References
deriving DecidableEq

/-- A relationship edge.  `from` and `to` are Lean keywords, hence the fields `from_` and `to_`. -/
structure Relationship where
  from_ : Str
  to_ : Str
  relation_type : RelationType
  label : Option Str
deriving DecidableEq

/-- `CrateAnalysis`: the aggregate model.  Each `HashMap<String, _>` is an
association list in iteration order; `impls` and `relationships` are plain
lists as in the source. -/
structure CrateAnalysis where
  name : Str
  structs : List (Str × StructDef)
  enums : List (Str × EnumDef)
  traits : List (Str × TraitDef)
  impls : List ImplBlock
  functions : List (Str × FunctionDef)
  modules : List (Str × ModuleDef)
  relationships : List Relationship
deriving DecidableEq

/-- `CrateAnalysis::merge`: `extend` on every map (append, later entry wins on
lookup) and on the two lists. -/
def merge (a other : CrateAnalysis) : CrateAnalysis :=
  { name := a.name
    structs := a.structs ++ other.structs
    enums := a.enums ++ other.enums
    traits := a.traits ++ other.traits
    impls := a.impls ++ other.impls
    functions := a.functions ++ other.functions
    modules := a.modules ++ other.modules
    relationships := a.relationships ++ other.relationships }

/-- `CrateAnalysis::all_type_names`: the struct keys and enum keys (a
`HashSet`, modelled as the list of keys in iteration order). -/
def all_type_names (analysis : CrateAnalysis) : List Str :=
  analysis.structs.map Prod.fst ++ analysis.enums.map Prod.fst

/-! ## The relationship analyzer (`analyzer/relationship_analyzer.rs`) -/

/-- The fixed primitive/std type names skipped by type-reference
extraction (`is_primitive_type`). -/
def primitiveNamesS : List String :=
  [r"bool", r"char", r"str", r"u8", r"u16", r"u32", r"u64", r"u128", r"usize",
   r"i8", r"i16", r"i32", r"i64", r"i128", r"isize", r"f32", r"f64",
   r"String", r"Vec", r"Option", r"Result", r"Box", r"Rc", r"Arc",
   r"RefCell", r"Cell", r"Mutex", r"RwLock", r"HashMap", r"HashSet",
   r"BTreeMap", r"BTreeSet", r"VecDeque", r"LinkedList", r"BinaryHeap",
   r"Cow", r"Pin", r"PhantomData", r"Self"]

def is_primitive_type (name : Str) : Bool :=
  (primitiveNamesS.map String.toList).contains name

/-- `resolve_type_name`: exact match, else first known entry whose last
segment is the candidate's simple name (or that equals the simple name),
else the candidate unchanged. -/
def resolve_type_name (type_name : Str) (known_types : List Str) : Str :=
  if type_name ∈ known_types then type_name
  else
    let simple_name := simpleNameL type_name
    match known_types.find?
        (fun known => (colon2 ++ simple_name).isSuffixOf known || known == simple_name) with
    | some known => known
    | none => type_name

/-- `find_trait_name`: exact key match among traits, else first trait key
ending in `::simple_name`, else the candidate unchanged. -/
def find_trait_name (trait_name : Str) (analysis : CrateAnalysis) : Str :=
  let keys := analysis.traits.map Prod.fst
  if trait_name ∈ keys then trait_name
  else
    let simple_name := simpleNameL trait_name
    match keys.find? (fun known => (colon2 ++ simple_name).isSuffixOf known) with
    | some known => known
    | none => trait_name

/-- `resolve_function_name`: exact match, else `current_module::call`, else
first known function ending in `::call`, else the empty string (which
suppresses the edge). -/
def resolve_function_name (call_name : Str) (known_functions : List Str)
    (current_module : Str) : Str :=
  if call_name ∈ known_functions then call_name
  else
    let full_name := current_module ++ colon2 ++ call_name
    if full_name ∈ known_functions then full_name
    else
      match known_functions.find? (fun known => (colon2 ++ call_name).isSuffixOf known) with
      | some known => known
      | none => []

/-- The characters `extract_type_references` replaces by a space. -/
def extractPunct : List Char := ['<', '>', '(', ')', '[', ']', ',', '&', '*']

/-- The cleanup step of `extract_type_references`: punctuation to spaces,
then the substrings `mut` and `dyn` to spaces. -/
def cleanTypeString (type_str : Str) : Str :=
  replace3 'd' 'y' 'n' ' '
    (replace3 'm' 'u' 't' ' '
      (type_str.map (fun c => if c ∈ extractPunct then ' ' else c)))

/-- The per-token body of `extract_type_references`'s loop: skip empty and
primitive tokens; keep a token's resolution when it differs from the token,
else the first known type ending in `::token` when one exists (the source's
`any` + first-match loop), else nothing. -/
def extractToken (known_types : List Str) (part : Str) : List Str :=
  let type_name := trimWs part
  if type_name.isEmpty then []
  else if is_primitive_type type_name then []
  else
    let resolved := resolve_type_name type_name known_types
    if !resolved.isEmpty && resolved != type_name then [resolved]
    else
      match known_types.find? (fun t => (colon2 ++ type_name).isSuffixOf t) with
      | some known => [known]
      | none => []

/-- `extract_type_references`: tokenize the cleaned type string and process
each token with `extractToken`. -/
def extract_type_references (type_str : Str) (known_types : List Str) : List Str :=
  (splitWs (cleanTypeString type_str)).flatMap (extractToken known_types)

/-- `analyze_impl_relationships`: one Implements edge per impl block that
names a trait, from the resolved self type to the resolved trait name. -/
def analyze_impl_relationships (analysis : CrateAnalysis) : List Relationship :=
  let type_names := all_type_names analysis
  analysis.impls.flatMap (fun impl_block =>
    let self_type := resolve_type_name impl_block.self_type type_names
    match impl_block.trait_name with
    | some trait_name =>
      [{ from_ := self_type, to_ := find_trait_name trait_name analysis,
         relation_type := RelationType.Implements, label := none }]
    | none => [])

/-- `analyze_field_relationships`: Contains edges from struct fields and enum
variant fields, labelled with the field name (or `Variant::field`). -/
def analyze_field_relationships (analysis : CrateAnalysis) : List Relationship :=
  let type_names := all_type_names analysis
  (analysis.structs.flatMap (fun p =>
    p.2.fields.flatMap (fun field =>
      (extract_type_references field.ty type_names).map (fun ref_type =>
        { from_ := p.1, to_ := ref_type,
          relation_type := RelationType.Contains, label := field.name }))))
  ++
  (analysis.enums.flatMap (fun p =>
    p.2.variants.flatMap (fun variant =>
      variant.fields.flatMap (fun field =>
        (extract_type_references field.ty type_names).map (fun ref_type =>
          { from_ := p.1, to_ := ref_type,
            relation_type := RelationType.Contains,
            label := some (variant.name ++ colon2 ++ field.name.getD []) })))))

/-- `analyze_call_relationships`: one Calls edge per resolvable raw call; an
empty resolution yields no edge.  (The source binds the resolution to a
local `called_func`; it is inlined here.) -/
def analyze_call_relationships (analysis : CrateAnalysis) : List Relationship :=
  let function_names := analysis.functions.map Prod.fst
  analysis.functions.flatMap (fun p =>
    p.2.calls.flatMap (fun call =>
      if !(resolve_function_name call function_names p.2.module_path).isEmpty then
        [{ from_ := p.1,
           to_ := resolve_function_name call function_names p.2.module_path,
           relation_type := RelationType.Calls, label := none }]
      else []))

/-- `analyze_module_dependencies`: DependsOn edges from use statements
(the use path minus its last segment, when different from the using
module and non-empty) and Contains edges to declared submodules. -/
def analyze_module_dependencies (analysis : CrateAnalysis) : List Relationship :=
  analysis.modules.flatMap (fun p =>
    (p.2.uses.flatMap (fun use_def =>
      let parts := splitOn2 ':' ':' use_def.path
      if parts.length ≥ 2 then
        let dep_module := List.intercalate colon2 (parts.take (parts.length - 1))
        if !dep_module.isEmpty && dep_module != p.1 then
          [{ from_ := p.1, to_ := dep_module,
             relation_type := RelationType.DependsOn, label := none }]
        else []
      else []))
    ++
    p.2.submodules.map (fun submodule =>
      { from_ := p.1, to_ := p.1 ++ colon2 ++ submodule,
        relation_type := RelationType.Contains, label := none }))

/-- `analyze_trait_inheritance`: one Extends edge per super trait. -/
def analyze_trait_inheritance (analysis : CrateAnalysis) : List Relationship :=
  analysis.traits.flatMap (fun p =>
    p.2.super_traits.map (fun super_trait =>
      { from_ := p.1, to_ := find_trait_name super_trait analysis,
        relation_type := RelationType.Extends, label := none }))

/-- `RelationshipAnalyzer::analyze`: replace the relationship list wholesale
with the concatenation of the five passes. -/
def analyze (analysis : CrateAnalysis) : CrateAnalysis :=
  { analysis with
    relationships :=
      analyze_impl_relationships analysis
      ++ analyze_field_relationships analysis
      ++ analyze_call_relationships analysis
      ++ analyze_module_dependencies analysis
      ++ analyze_trait_inheritance analysis }

/-! ## The mermaid generator (`generator/mermaid.rs`) -/

/-- The underscore character. -/
def usc : Char := '_'

/-- The characters `sanitize_id` replaces by an underscore (`<` `>` `(` `)`
`[` `]` `,` space `&` `*` and the apostrophe, ASCII 39). -/
def sanitizePunct : List Char :=
  ['<', '>', '(', ')', '[', ']', ',', ' ', '&', '*', Char.ofNat 39]

/-- `MermaidGenerator::sanitize_id`: `::` to `_`, then `-` to `_`, then the
punctuation set to `_`, then collapse `__` to `_` (one left-to-right
non-overlapping pass, as `str::replace`), then trim `_` from both ends. -/
def sanitize_id (name : Str) : Str :=
  trimUnderscores
    (replace2 usc usc usc
      (((replace2 ':' ':' usc name).map (fun c => if c = '-' then usc else c)).map
        (fun c => if c ∈ sanitizePunct then usc else c)))

/-- The known module set of the module diagram: declared module keys plus the
parent-module prefix (text before the last `::`) of every struct, enum and
trait key; a `HashSet`, modelled as a duplicate-free list. -/
def moduleDiagramModules (analysis : CrateAnalysis) : List Str :=
  ((analysis.modules.map Prod.fst)
    ++ (analysis.structs.map Prod.fst).flatMap (fun n => (prefixBeforeLastSS n).toList)
    ++ (analysis.enums.map Prod.fst).flatMap (fun n => (prefixBeforeLastSS n).toList)
    ++ (analysis.traits.map Prod.fst).flatMap (fun n => (prefixBeforeLastSS n).toList)).dedup

/-- The `-->` edges emitted by `generate_module_diagram`: fold over the
relationship list keeping DependsOn edges whose raw endpoints are both known
modules, deduplicated by the pair of sanitized ids (`seen_deps`).  The
accumulated list is exactly the emission order, and doubles as the seen
set. -/
def moduleDepStep (mods : List Str) (seen : List (Str × Str)) (rel : Relationship) :
    List (Str × Str) :=
  if rel.relation_type = RelationType.DependsOn then
    if rel.from_ ∈ mods ∧ rel.to_ ∈ mods ∧
        (sanitize_id rel.from_, sanitize_id rel.to_) ∉ seen then
      seen ++ [(sanitize_id rel.from_, sanitize_id rel.to_)]
    else seen
  else seen

def moduleDepEdges (mods : List Str) (rels : List Relationship) : List (Str × Str) :=
  rels.foldl (moduleDepStep mods) []

def mdHeader : Str := "flowchart TD\n".toList
def indentS : Str := "    ".toList
def arrowS : Str := " --> ".toList
def dashArrowS : Str := " -.-> ".toList
def nodeOpenS : Str := "[\"".toList
def nodeCloseS : Str := "\"]\n".toList
def nlS : Str := "\n".toList

/-- `MermaidGenerator::generate_module_diagram`: header, one node per known
module, the filtered DependsOn edges (`moduleDepEdges`), then the dashed
submodule edges. -/
def generate_module_diagram (analysis : CrateAnalysis) : Str :=
  let modules := moduleDiagramModules analysis
  let nodes := modules.flatMap (fun m =>
    indentS ++ sanitize_id m ++ nodeOpenS ++ simpleNameL m ++ nodeCloseS)
  let deps := (moduleDepEdges modules analysis.relationships).flatMap (fun p =>
    indentS ++ p.1 ++ arrowS ++ p.2 ++ nlS)
  let subs := analysis.modules.flatMap (fun p =>
    p.2.submodules.flatMap (fun submodule =>
      let sub_path := p.1 ++ colon2 ++ submodule
      if sub_path ∈ modules then
        indentS ++ sanitize_id p.1 ++ dashArrowS ++ sanitize_id sub_path ++ nlS
      else []))
  mdHeader ++ nodes ++ deps ++ subs

def implementsS : Str := "implements".toList
def containsS : Str := "contains".toList
def extendsS : Str := "extends".toList

/-- The per-kind label of the C4 component view's relationship section: the
source's `match` whose catch-all arm `continue`s (returns `none` here). -/
def c4RelLabel : RelationType → Option Str
  | RelationType.Implements => some implementsS
  | RelationType.Contains => some containsS
  | RelationType.Extends => some extendsS
  | _ => none

/-- The dash character used in the `{from_id}-{to_id}` seen key. -/
def dashC : Char := '-'

/-- One step of the C4 component relationship loop.  State: the `seen` key
set (in insertion order) and the emitted `Rel(from, to, label)` triples.
The key is inserted before the relationship kind is matched, exactly as in
`generate_c4_component`. -/
def c4RelStep (st : List Str × List (Str × Str × Str)) (rel : Relationship) :
    List Str × List (Str × Str × Str) :=
  if (sanitize_id rel.from_ ++ [dashC] ++ sanitize_id rel.to_) ∈ st.1
      ∨ sanitize_id rel.from_ = sanitize_id rel.to_ then st
  else
    match c4RelLabel rel.relation_type with
    | some label =>
      (st.1 ++ [sanitize_id rel.from_ ++ [dashC] ++ sanitize_id rel.to_],
       st.2 ++ [(sanitize_id rel.from_, sanitize_id rel.to_, label)])
    | none =>
      (st.1 ++ [sanitize_id rel.from_ ++ [dashC] ++ sanitize_id rel.to_], st.2)

/-- The `Rel(...)` lines emitted by `generate_c4_component`, as
(sanitized from, sanitized to, label) triples in emission order. -/
def c4ComponentRels (rels : List Relationship) : List (Str × Str × Str) :=
  (rels.foldl c4RelStep ([], [])).2

/-! ## Concrete inputs used by counterexamples and witnesses -/

def userTok : Str := "User".toList
def vecTok : Str := "Vec".toList
def vecUserS : Str := "Vec<User>".toList
def uFQN : Str := "crate::domain::User".toList
def sanUser : Str := "crate_domain_User".toList
def tripleUS : Str := "a___b".toList
def crateTok : Str := "crate".toList
def fooFQN : Str := "crate::Foo".toList
def fooTok : Str := "Foo".toList
def barTok : Str := "bar".toList
def bazFQN : Str := "crate::Baz".toList
def bazTok : Str := "Baz".toList
def zeroTok : Str := "0".toList
def fFQN : Str := "crate::f".toList
def fTok : Str := "f".toList
def gTok : Str := "g".toList
def quxTok : Str := "Qux".toList
def widgetTok : Str := "Widget".toList
def displayTok : Str := "Display".toList
def enumFQN : Str := "crate::E".toList
def eTok : Str := "E".toList
def vTok : Str := "V".toList
def aName : Str := "a".toList
def bName : Str := "b".toList
def emptyAnalysis : CrateAnalysis :=
  { name := crateTok, structs := [], enums := [], traits := [], impls := [],
    functions := [], modules := [], relationships := [] }

/-- A public struct with no fields, used as a known type in concrete models. -/
def plainStructDef (n : Str) : StructDef :=
  { name := n, visibility := Visibility.Public, fields := [], generics := [],
    is_tuple := false, module_path := crateTok }

/-- A private named field of the given textual type. -/
def mkField (nm : Option Str) (ty : Str) : StructField :=
  { name := nm, ty := ty, visibility := Visibility.Private }

/-- A struct with one field. -/
def structDefWith (n : Str) (f : StructField) : StructDef :=
  { name := n, visibility := Visibility.Public, fields := [f], generics := [],
    is_tuple := false, module_path := crateTok }

/-- A trait with no methods and no super traits. -/
def plainTraitDef (n : Str) : TraitDef :=
  { name := n, visibility := Visibility.Public, methods := [], generics := [],
    super_traits := [], module_path := crateTok }

/-- The model holding one trait keyed `crate::domain::User` (C8 witness). -/
def mTrait : CrateAnalysis :=
  { emptyAnalysis with traits := [(uFQN, plainTraitDef userTok)] }

/-- An impl block `impl Display for Widget` with an unresolvable trait name. -/
def implWidget : ImplBlock :=
  { self_type := widgetTok, trait_name := some displayTok, methods := [],
    generics := [], module_path := crateTok }

/-- C1 witness model: one impl block whose trait name resolves to nothing. -/
def mImpl : CrateAnalysis := { emptyAnalysis with impls := [implWidget] }

/-- C1 counterexample model: a function whose one raw call target `g`
resolves to no known function, and a struct field of unknown type `Qux`. -/
def mC1 : CrateAnalysis :=
  { emptyAnalysis with
    structs := [(fooFQN, structDefWith fooTok (mkField (some barTok) quxTok))]
    functions := [(fFQN,
      { name := fTok, visibility := Visibility.Public, is_async := false,
        params := [], return_type := none, calls := [gTok],
        module_path := crateTok })] }

/-- C2 counterexample model: `crate::Foo` has field `bar` whose written type
is exactly the known fully-qualified name `crate::Baz`. -/
def mC2 : CrateAnalysis :=
  { emptyAnalysis with
    structs := [(fooFQN, structDefWith fooTok (mkField (some barTok) bazFQN)),
                (bazFQN, plainStructDef bazTok)] }

/-- The field `bar: Baz` and the struct `Foo` holding it. -/
def barBazField : StructField := mkField (some barTok) bazTok

def fooStructDef : StructDef := structDefWith fooTok barBazField

/-- The variant `V` with one unnamed field of type `Baz`; the parser names
the field by its position, `"0"` (`rust_parser.rs`, `Fields::Unnamed`). -/
def zeroBazField : StructField := mkField (some zeroTok) bazTok

def vVariant : EnumVariant :=
  { name := vTok, fields := [zeroBazField], discriminant := none }

def eEnumDef : EnumDef :=
  { name := eTok, visibility := Visibility.Public, variants := [vVariant],
    generics := [], module_path := crateTok }

/-- C2 witness model: `crate::Foo` has field `bar: Baz`, the enum `crate::E`
has a variant `V` with one unnamed field of type `Baz` (which the parser
names `"0"`), and `Baz` is the known type `crate::Baz`. -/
def mC2W : CrateAnalysis :=
  { emptyAnalysis with
    structs := [(fooFQN, fooStructDef), (bazFQN, plainStructDef bazTok)]
    enums := [(enumFQN, eEnumDef)] }

/-- C4 witness models: two aggregates with disjoint keys everywhere. -/
def mC4A : CrateAnalysis :=
  { emptyAnalysis with
    structs := [(fooFQN, plainStructDef fooTok)]
    impls := [implWidget]
    relationships := [{ from_ := aName, to_ := bName,
                        relation_type := RelationType.Calls, label := none }] }

def mC4B : CrateAnalysis :=
  { emptyAnalysis with
    structs := [(bazFQN, plainStructDef bazTok)]
    enums := [(enumFQN,
      { name := eTok, visibility := Visibility.Public, variants := [],
        generics := [], module_path := crateTok })]
    relationships := [{ from_ := bName, to_ := aName,
                        relation_type := RelationType.DependsOn, label := none }] }

/-- A module with no submodules and no uses. -/
def plainModuleDef (n p : Str) : ModuleDef :=
  { name := n, visibility := Visibility.Public, path := p, submodules := [],
    uses := [] }

def aModPath : Str := "crate::a".toList
def bModPath : Str := "crate::b".toList

/-- C7 witness model: two declared modules, one DependsOn edge between them
and one DependsOn edge towards an undeclared module. -/
def mC7 : CrateAnalysis :=
  { emptyAnalysis with
    modules := [(aModPath, plainModuleDef aName aModPath),
                (bModPath, plainModuleDef bName bModPath)]
    relationships := [{ from_ := aModPath, to_ := bModPath,
                        relation_type := RelationType.DependsOn, label := none },
                      { from_ := aModPath, to_ := quxTok,
                        relation_type := RelationType.DependsOn, label := none }] }

/-- C10 witness relationships: an unsupported-kind (Calls) edge between a
pair followed by a supported-kind (Implements) edge between the same pair. -/
def c10Rel1 : Relationship :=
  { from_ := aName, to_ := bName, relation_type := RelationType.Calls, label := none }

def c10Rel2 : Relationship :=
  { from_ := aName, to_ := bName, relation_type := RelationType.Implements, label := none }

/-! ## Helper lemmas: substrings, trimming, tokenization -/

theorem containsSub_cons_false {p : Str} {c : Char} {t : Str}
    (h : containsSub p (c :: t) = false) :
    p.isPrefixOf (c :: t) = false ∧ containsSub p t = false := by
  simpa [containsSub, Bool.or_eq_false_iff] using h

theorem containsSub_tail {p : Str} {c : Char} {t : Str}
    (h : containsSub p (c :: t) = false) : containsSub p t = false :=
  (containsSub_cons_false h).2

theorem containsSub_true_iff (p s : Str) :
    containsSub p s = true ↔ ∃ l r, s = l ++ p ++ r := by
  constructor
  · intro h
    induction s with
    | nil =>
      refine ⟨[], [], ?_⟩
      have : p = [] := List.isEmpty_iff.mp h
      simp [this]
    | cons c t ih =>
      rcases Bool.or_eq_true_iff.mp h with hp | hr
      · obtain ⟨r, hr⟩ := List.isPrefixOf_iff_prefix.mp hp
        exact ⟨[], r, by simp [hr.symm]⟩
      · obtain ⟨l, r, hlr⟩ := ih hr
        exact ⟨c :: l, r, by simp [hlr]⟩
  · rintro ⟨l, r, rfl⟩
    induction l with
    | nil =>
      cases p with
      | nil =>
        cases r with
        | nil => rfl
        | cons c t => simp [containsSub, List.isPrefixOf]
      | cons a q =>
        have hp : (a :: q).isPrefixOf ((a :: q) ++ r) = true :=
          List.isPrefixOf_iff_prefix.mpr (List.prefix_append _ _)
        simp only [List.nil_append, List.cons_append] at *
        simp [containsSub, hp]
    | cons c l ih =>
      have hstep : containsSub p ((c :: l) ++ p ++ r)
          = (p.isPrefixOf (c :: (l ++ p ++ r)) || containsSub p (l ++ p ++ r)) := rfl
      rw [hstep, ih, Bool.or_true]

theorem containsSub_dropWhile {p : Str} {f : Char → Bool} {s : Str}
    (h : containsSub p s = false) : containsSub p (s.dropWhile f) = false := by
  induction s with
  | nil => simpa using h
  | cons c t ih =>
    rw [List.dropWhile_cons]
    split
    · exact ih (containsSub_tail h)
    · exact h

theorem containsSub_of_prefix {p s t : Str} (hpre : t <+: s)
    (h : containsSub p s = false) : containsSub p t = false := by
  by_contra hc
  rw [Bool.not_eq_false] at hc
  obtain ⟨l, r, rfl⟩ := (containsSub_true_iff p t).mp hc
  obtain ⟨u, rfl⟩ := hpre
  have : containsSub p (l ++ p ++ r ++ u) = true :=
    (containsSub_true_iff p _).mpr ⟨l, r ++ u, by simp⟩
  rw [this] at h
  exact absurd h (by simp)

theorem dropTrailing_isPrefixOf (f : Char → Bool) (s : Str) : dropTrailing f s <+: s := by
  induction s with
  | nil => simp [dropTrailing]
  | cons c t ih =>
    simp only [dropTrailing]
    cases h : dropTrailing f t with
    | nil =>
      by_cases hfc : f c = true
      · simp only [hfc, if_true]
        exact List.nil_prefix
      · simp only [hfc, if_false]
        exact ⟨t, rfl⟩
    | cons x xs =>
      rw [h] at ih
      obtain ⟨u, hu⟩ := ih
      exact ⟨u, by simp [hu]⟩

theorem dropTrailing_eq_self {f : Char → Bool} {s : Str}
    (h : ∀ c ∈ s, f c = false) : dropTrailing f s = s := by
  induction s with
  | nil => rfl
  | cons c t ih =>
    have ht : dropTrailing f t = t := ih (fun x hx => h x (List.mem_cons_of_mem c hx))
    simp only [dropTrailing, ht]
    cases t with
    | nil => simp [h c (List.mem_cons_self c [])]
    | cons x xs => rfl

theorem dropWhile_eq_self {f : Char → Bool} {s : Str}
    (h : ∀ c ∈ s, f c = false) : s.dropWhile f = s := by
  cases s with
  | nil => rfl
  | cons c t => simp [List.dropWhile_cons, h c (List.mem_cons_self c t)]

theorem trimWs_eq_self {s : Str} (h : ∀ c ∈ s, c.isWhitespace = false) :
    trimWs s = s := by
  unfold trimWs
  rw [dropWhile_eq_self h, dropTrailing_eq_self h]

theorem splitWsAux_mem_token :
    ∀ (s acc tok : Str), tok ∈ splitWsAux s acc →
      (∀ c ∈ acc, c.isWhitespace = false) →
      tok ≠ [] ∧ ∀ c ∈ tok, c.isWhitespace = false := by
  intro s
  induction s with
  | nil =>
    intro acc tok h hacc
    simp only [splitWsAux] at h
    split at h
    · simp at h
    · rename_i hne
      have : tok = acc.reverse := by simpa using h
      subst this
      constructor
      · intro hrev
        have : acc = [] := by simpa using congrArg List.reverse hrev
        exact hne (by simp [this])
      · intro c hc
        exact hacc c (List.mem_reverse.mp hc)
  | cons c t ih =>
    intro acc tok h hacc
    simp only [splitWsAux] at h
    split at h
    · split at h
      · exact ih [] tok h (by simp)
      · rename_i hne
        rcases List.mem_cons.mp h with heq | hmem
        · subst heq
          constructor
          · intro hrev
            have : acc = [] := by simpa using congrArg List.reverse hrev
            exact hne (by simp [this])
          · intro x hx
            exact hacc x (List.mem_reverse.mp hx)
        · exact ih [] tok hmem (by simp)
    · rename_i hcw
      refine ih (c :: acc) tok h ?_
      intro x hx
      rcases List.mem_cons.mp hx with rfl | hxa
      · simpa using hcw
      · exact hacc x hxa

theorem splitWs_token {s tok : Str} (h : tok ∈ splitWs s) :
    tok ≠ [] ∧ ∀ c ∈ tok, c.isWhitespace = false :=
  splitWsAux_mem_token s [] tok h (by simp)

theorem trimWs_splitWs_token {s tok : Str} (h : tok ∈ splitWs s) : trimWs tok = tok :=
  trimWs_eq_self (splitWs_token h).2

/-! ## Helper lemmas: the character-replacement passes of `sanitize_id` -/

/-- Two-step list induction matching `replace2`'s recursion pattern. -/
theorem list2_induction {motive : Str → Prop} (hnil : motive [])
    (hone : ∀ c, motive [c])
    (htwo : ∀ c1 c2 t, motive t → motive (c2 :: t) → motive (c1 :: c2 :: t)) :
    ∀ s, motive s := by
  have key : ∀ s : Str, motive s ∧ ∀ c, motive (c :: s) := by
    intro s
    induction s with
    | nil => exact ⟨hnil, hone⟩
    | cons c t ih => exact ⟨ih.2 c, fun c1 => htwo c1 c t ih.1 (ih.2 c)⟩
  exact fun s => (key s).1

theorem replace2_eq_self (a b d : Char) :
    ∀ (s : Str), containsSub [a, b] s = false → replace2 a b d s = s := by
  intro s
  induction s using list2_induction with
  | hnil => intro _; rfl
  | hone c => intro _; rfl
  | htwo c1 c2 t iht ihct =>
    intro h
    obtain ⟨hpf, ht⟩ := containsSub_cons_false h
    have hne : ¬(c1 = a ∧ c2 = b) := by
      rintro ⟨rfl, rfl⟩
      simp [List.isPrefixOf] at hpf
    show (if c1 = a ∧ c2 = b then d :: replace2 a b d t
          else c1 :: replace2 a b d (c2 :: t)) = c1 :: c2 :: t
    rw [if_neg hne, ihct ht]

theorem replace2_head (a d : Char) :
    ∀ (t : Str) (e : Char), (replace2 a a d t).head? = some e → e ≠ d →
      t.head? = some e := by
  intro t e h hed
  match t with
  | [] => simp [replace2] at h
  | [c] => simpa [replace2] using h
  | c1 :: c2 :: t' =>
    by_cases hab : c1 = a ∧ c2 = a
    · have : (replace2 a a d (c1 :: c2 :: t')).head? = some d := by
        show (if c1 = a ∧ c2 = a then d :: replace2 a a d t'
              else c1 :: replace2 a a d (c2 :: t')).head? = some d
        rw [if_pos hab]; rfl
      rw [this] at h
      exact absurd (Option.some.inj h).symm hed
    · have : (replace2 a a d (c1 :: c2 :: t')).head? = some c1 := by
        show (if c1 = a ∧ c2 = a then d :: replace2 a a d t'
              else c1 :: replace2 a a d (c2 :: t')).head? = some c1
        rw [if_neg hab]; rfl
      rw [this] at h
      exact h

theorem replace2_no_pair (a d : Char) (hne : a ≠ d) :
    ∀ (s : Str), containsSub [a, a] (replace2 a a d s) = false := by
  intro s
  induction s using list2_induction with
  | hnil => rfl
  | hone c => simp [replace2, containsSub, List.isPrefixOf]
  | htwo c1 c2 t iht ihct =>
    by_cases hab : c1 = a ∧ c2 = a
    · have hstep : replace2 a a d (c1 :: c2 :: t) = d :: replace2 a a d t := by
        show (if c1 = a ∧ c2 = a then d :: replace2 a a d t
              else c1 :: replace2 a a d (c2 :: t)) = d :: replace2 a a d t
        rw [if_pos hab]
      rw [hstep]
      have had : (a == d) = false := beq_eq_false_iff_ne.mpr hne
      simp [containsSub, List.isPrefixOf, had, iht]
    · have hstep : replace2 a a d (c1 :: c2 :: t) = c1 :: replace2 a a d (c2 :: t) := by
        show (if c1 = a ∧ c2 = a then d :: replace2 a a d t
              else c1 :: replace2 a a d (c2 :: t)) = c1 :: replace2 a a d (c2 :: t)
        rw [if_neg hab]
      rw [hstep]
      simp only [containsSub, Bool.or_eq_false_iff]
      refine ⟨?_, ihct⟩
      by_cases hc1 : c1 = a
      · subst hc1
        cases hY : replace2 c1 c1 d (c2 :: t) with
        | nil => simp [List.isPrefixOf]
        | cons y ys =>
          by_cases hy : y = c1
          · exfalso
            have hhead : (replace2 c1 c1 d (c2 :: t)).head? = some c1 := by
              rw [hY, hy]; rfl
            have := replace2_head c1 d (c2 :: t) c1 hhead hne
            have hc2 : c2 = c1 := by simpa using this
            exact hab ⟨rfl, hc2⟩
          · have : (c1 == y) = false := beq_eq_false_iff_ne.mpr (fun h => hy h.symm)
            simp [List.isPrefixOf, this]
      · have : (a == c1) = false := beq_eq_false_iff_ne.mpr (fun h => hc1 h.symm)
        simp [List.isPrefixOf, this]

theorem replace2_preserve_no_pair (b d e : Char) (heb : e ≠ b) (hed : e ≠ d) :
    ∀ (s : Str), containsSub [e, e] s = false →
      containsSub [e, e] (replace2 b b d s) = false := by
  intro s
  induction s using list2_induction with
  | hnil => intro _; rfl
  | hone c => intro h; simpa [replace2] using h
  | htwo c1 c2 t iht ihct =>
    intro h
    obtain ⟨hpf, hct⟩ := containsSub_cons_false h
    have ht : containsSub [e, e] t = false := containsSub_tail hct
    by_cases hab : c1 = b ∧ c2 = b
    · have hstep : replace2 b b d (c1 :: c2 :: t) = d :: replace2 b b d t := by
        show (if c1 = b ∧ c2 = b then d :: replace2 b b d t
              else c1 :: replace2 b b d (c2 :: t)) = d :: replace2 b b d t
        rw [if_pos hab]
      rw [hstep]
      have hedb : (e == d) = false := beq_eq_false_iff_ne.mpr hed
      simp [containsSub, List.isPrefixOf, hedb, iht ht]
    · have hstep : replace2 b b d (c1 :: c2 :: t) = c1 :: replace2 b b d (c2 :: t) := by
        show (if c1 = b ∧ c2 = b then d :: replace2 b b d t
              else c1 :: replace2 b b d (c2 :: t)) = c1 :: replace2 b b d (c2 :: t)
        rw [if_neg hab]
      rw [hstep]
      simp only [containsSub, Bool.or_eq_false_iff]
      refine ⟨?_, ihct hct⟩
      by_cases hc1 : c1 = e
      · subst hc1
        cases hY : replace2 b b d (c2 :: t) with
        | nil => simp [List.isPrefixOf]
        | cons y ys =>
          by_cases hy : y = c1
          · exfalso
            have hhead : (replace2 b b d (c2 :: t)).head? = some c1 := by
              rw [hY, hy]; rfl
            have := replace2_head b d (c2 :: t) c1 hhead hed
            have hc2 : c2 = c1 := by simpa using this
            rw [hc2] at hpf
            simp [List.isPrefixOf] at hpf
          · have : (c1 == y) = false := beq_eq_false_iff_ne.mpr (fun h => hy h.symm)
            simp [List.isPrefixOf, this]
      · have : (e == c1) = false := beq_eq_false_iff_ne.mpr (fun h => hc1 h.symm)
        simp [List.isPrefixOf, this]

theorem replace2_mem (a b d : Char) :
    ∀ (s : Str) (x : Char), x ∈ replace2 a b d s → x = d ∨ x ∈ s := by
  intro s
  induction s using list2_induction with
  | hnil => intro x hx; exact absurd hx (by simp [replace2])
  | hone c => intro x hx; right; simpa [replace2] using hx
  | htwo c1 c2 t iht ihct =>
    intro x hx
    by_cases hab : c1 = a ∧ c2 = b
    · have hstep : replace2 a b d (c1 :: c2 :: t) = d :: replace2 a b d t := by
        show (if c1 = a ∧ c2 = b then d :: replace2 a b d t
              else c1 :: replace2 a b d (c2 :: t)) = d :: replace2 a b d t
        rw [if_pos hab]
      rw [hstep] at hx
      rcases List.mem_cons.mp hx with rfl | hx2
      · exact Or.inl rfl
      · rcases iht x hx2 with h | h
        · exact Or.inl h
        · exact Or.inr (by simp [h])
    · have hstep : replace2 a b d (c1 :: c2 :: t) = c1 :: replace2 a b d (c2 :: t) := by
        show (if c1 = a ∧ c2 = b then d :: replace2 a b d t
              else c1 :: replace2 a b d (c2 :: t)) = c1 :: replace2 a b d (c2 :: t)
        rw [if_neg hab]
      rw [hstep] at hx
      rcases List.mem_cons.mp hx with rfl | hx2
      · exact Or.inr (by simp)
      · rcases ihct x hx2 with h | h
        · exact Or.inl h
        · exact Or.inr (by simp [List.mem_cons.mp h])

theorem map_preserve_no_pair {f : Char → Char} {e : Char}
    (hf : ∀ x, f x = e → x = e) :
    ∀ (s : Str), containsSub [e, e] s = false →
      containsSub [e, e] (s.map f) = false := by
  intro s
  induction s with
  | nil => intro _; rfl
  | cons a t ih =>
    intro h
    obtain ⟨hpf, ht⟩ := containsSub_cons_false h
    simp only [List.map_cons, containsSub, Bool.or_eq_false_iff]
    refine ⟨?_, ih ht⟩
    by_cases hfa : f a = e
    · have ha : a = e := hf a hfa
      cases t with
      | nil => simp [List.isPrefixOf]
      | cons x t' =>
        by_cases hfx : f x = e
        · exfalso
          have hx : x = e := hf x hfx
          rw [ha, hx] at hpf
          simp [List.isPrefixOf] at hpf
        · have : (e == f x) = false := beq_eq_false_iff_ne.mpr (fun hh => hfx hh.symm)
          simp [List.isPrefixOf, hfa, this]
    · have : (e == f a) = false := beq_eq_false_iff_ne.mpr (fun hh => hfa hh.symm)
      simp [List.isPrefixOf, this]

theorem map_eq_self_of {f : Char → Char} :
    ∀ {s : Str}, (∀ x ∈ s, f x = x) → s.map f = s := by
  intro s
  induction s with
  | nil => intro _; rfl
  | cons c t ih =>
    intro h
    simp only [List.map_cons]
    rw [h c (List.mem_cons_self c t), ih (fun x hx => h x (List.mem_cons_of_mem c hx))]

theorem head?_dropWhile_false (f : Char → Bool) :
    ∀ (s : Str) (c : Char), (s.dropWhile f).head? = some c → f c = false := by
  intro s
  induction s with
  | nil => intro c h; simp at h
  | cons a t ih =>
    intro c h
    rw [List.dropWhile_cons] at h
    split at h
    · exact ih c h
    · rename_i hfa
      have : c = a := by simpa using h.symm
      subst this
      simpa using hfa

theorem dropTrailing_cons (f : Char → Bool) (c : Char) (t : Str) :
    dropTrailing f (c :: t) =
      match dropTrailing f t with
      | [] => if f c then [] else [c]
      | t' => c :: t' := rfl

theorem dropTrailing_idem (f : Char → Bool) :
    ∀ (s : Str), dropTrailing f (dropTrailing f s) = dropTrailing f s := by
  intro s
  induction s with
  | nil => rfl
  | cons c t ih =>
    cases h : dropTrailing f t with
    | nil =>
      rw [dropTrailing_cons, h]
      by_cases hfc : f c = true
      · simp [hfc, dropTrailing]
      · simp [hfc, dropTrailing_cons, dropTrailing]
    | cons x xs =>
      rw [h] at ih
      rw [dropTrailing_cons f c t, h]
      show dropTrailing f (c :: x :: xs) = c :: x :: xs
      rw [dropTrailing_cons f c (x :: xs), ih]

theorem trimUnderscores_idem (s : Str) :
    trimUnderscores (trimUnderscores s) = trimUnderscores s := by
  unfold trimUnderscores
  cases hdt : dropTrailing (fun c => c == '_') (s.dropWhile (fun c => c == '_')) with
  | nil => simp [dropTrailing]
  | cons x xs =>
    have hpre := dropTrailing_isPrefixOf (fun c => c == '_') (s.dropWhile (fun c => c == '_'))
    rw [hdt] at hpre
    obtain ⟨u, hu⟩ := hpre
    have hhead : (s.dropWhile (fun c => c == '_')).head? = some x := by
      rw [← hu]; rfl
    have hxf : (x == '_') = false := head?_dropWhile_false _ s x hhead
    have hdw : (x :: xs).dropWhile (fun c => c == '_') = x :: xs := by
      simp [List.dropWhile_cons, hxf]
    rw [hdw, ← hdt, dropTrailing_idem]

/-! ## Properties of `sanitize_id`'s output -/

theorem dashF_colon : ∀ x : Char, (if x = '-' then usc else x) = ':' → x = ':' := by
  intro x hx
  by_cases h : x = '-'
  · rw [if_pos h] at hx
    exact absurd hx (by decide)
  · rwa [if_neg h] at hx

theorem punctF_colon : ∀ x : Char, (if x ∈ sanitizePunct then usc else x) = ':' → x = ':' := by
  intro x hx
  by_cases h : x ∈ sanitizePunct
  · rw [if_pos h] at hx
    exact absurd hx (by decide)
  · rwa [if_neg h] at hx

theorem sanitize_id_no_colon_pair (s : Str) :
    containsSub [':', ':'] (sanitize_id s) = false := by
  unfold sanitize_id trimUnderscores
  apply containsSub_of_prefix (dropTrailing_isPrefixOf _ _)
  apply containsSub_dropWhile
  apply replace2_preserve_no_pair usc usc ':' (by decide) (by decide)
  apply map_preserve_no_pair punctF_colon
  apply map_preserve_no_pair dashF_colon
  exact replace2_no_pair ':' usc (by decide) s

theorem sanitize_id_mem (s : Str) :
    ∀ x ∈ sanitize_id s, x ∈ replace2 usc usc usc
      (((replace2 ':' ':' usc s).map (fun c => if c = '-' then usc else c)).map
        (fun c => if c ∈ sanitizePunct then usc else c)) := by
  intro x hx
  unfold sanitize_id trimUnderscores at hx
  have h1 := List.Sublist.mem hx (dropTrailing_isPrefixOf _ _).sublist
  exact List.Sublist.mem h1 (List.dropWhile_sublist _)

theorem sanitize_id_no_dash (s : Str) : ∀ x ∈ sanitize_id s, x ≠ '-' := by
  intro x hx
  have hx4 := sanitize_id_mem s x hx
  rcases replace2_mem usc usc usc _ x hx4 with rfl | hx3
  · decide
  · obtain ⟨y, hy, rfl⟩ := List.mem_map.mp hx3
    by_cases hyp : y ∈ sanitizePunct
    · rw [if_pos hyp]; decide
    · rw [if_neg hyp]
      obtain ⟨z, hz, rfl⟩ := List.mem_map.mp hy
      by_cases hzd : z = '-'
      · rw [if_pos hzd]; decide
      · rwa [if_neg hzd]

theorem sanitize_id_no_punct (s : Str) : ∀ x ∈ sanitize_id s, x ∉ sanitizePunct := by
  intro x hx
  have hx4 := sanitize_id_mem s x hx
  rcases replace2_mem usc usc usc _ x hx4 with rfl | hx3
  · decide
  · obtain ⟨y, hy, rfl⟩ := List.mem_map.mp hx3
    by_cases hyp : y ∈ sanitizePunct
    · rw [if_pos hyp]; decide
    · rwa [if_neg hyp]

theorem sanitize_id_trim_fix (s : Str) :
    trimUnderscores (sanitize_id s) = sanitize_id s := by
  unfold sanitize_id
  exact trimUnderscores_idem _

/-- A string that every pass of `sanitize_id` leaves alone is a fixed point. -/
theorem sanitize_id_fix {t : Str} (hcc : containsSub [':', ':'] t = false)
    (hdash : ∀ x ∈ t, x ≠ '-') (hpunct : ∀ x ∈ t, x ∉ sanitizePunct)
    (huu : containsSub [usc, usc] t = false) (htrim : trimUnderscores t = t) :
    sanitize_id t = t := by
  have hd : ∀ x ∈ t, (if x = '-' then usc else x) = x :=
    fun x hx => if_neg (hdash x hx)
  unfold sanitize_id
  rw [replace2_eq_self ':' ':' usc t hcc, map_eq_self_of hd]
  have hp : ∀ x ∈ t, (if x ∈ sanitizePunct then usc else x) = x :=
    fun x hx => if_neg (hpunct x hx)
  rw [map_eq_self_of hp, replace2_eq_self usc usc usc t huu]
  exact htrim

/-! ## Helper lemmas: the name resolvers -/

theorem resolve_type_name_eq (tn : Str) (ks : List Str) :
    resolve_type_name tn ks =
      if tn ∈ ks then tn
      else
        match ks.find? (fun known =>
            (colon2 ++ simpleNameL tn).isSuffixOf known || known == simpleNameL tn) with
        | some known => known
        | none => tn := rfl

theorem resolve_function_name_eq (c : Str) (ks : List Str) (mod : Str) :
    resolve_function_name c ks mod =
      if c ∈ ks then c
      else if mod ++ colon2 ++ c ∈ ks then mod ++ colon2 ++ c
      else
        match ks.find? (fun known => (colon2 ++ c).isSuffixOf known) with
        | some known => known
        | none => [] := rfl

theorem find_trait_name_eq (t : Str) (m : CrateAnalysis) :
    find_trait_name t m =
      if t ∈ m.traits.map Prod.fst then t
      else
        match (m.traits.map Prod.fst).find? (fun known =>
            (colon2 ++ simpleNameL t).isSuffixOf known) with
        | some known => known
        | none => t := rfl

theorem resolve_type_name_of_mem {tn : Str} {ks : List Str} (h : tn ∈ ks) :
    resolve_type_name tn ks = tn := by
  rw [resolve_type_name_eq, if_pos h]

theorem resolve_function_name_of_mem {c : Str} {ks : List Str} (mod : Str) (h : c ∈ ks) :
    resolve_function_name c ks mod = c := by
  rw [resolve_function_name_eq, if_pos h]

theorem find_trait_name_of_mem {t : Str} {m : CrateAnalysis}
    (h : t ∈ m.traits.map Prod.fst) : find_trait_name t m = t := by
  rw [find_trait_name_eq, if_pos h]

theorem resolve_type_name_mem {tn : Str} {ks : List Str}
    (h : resolve_type_name tn ks ≠ tn) : resolve_type_name tn ks ∈ ks := by
  by_cases hm : tn ∈ ks
  · exact absurd (resolve_type_name_of_mem hm) h
  · rw [resolve_type_name_eq, if_neg hm] at h ⊢
    cases hf : ks.find? (fun known =>
        (colon2 ++ simpleNameL tn).isSuffixOf known || known == simpleNameL tn) with
    | none => rw [hf] at h; exact absurd rfl h
    | some k => exact List.mem_of_find?_eq_some hf

theorem resolve_function_name_mem {c mod : Str} {ks : List Str}
    (h : resolve_function_name c ks mod ≠ []) : resolve_function_name c ks mod ∈ ks := by
  rw [resolve_function_name_eq] at h ⊢
  by_cases h1 : c ∈ ks
  · rw [if_pos h1]
    exact h1
  · rw [if_neg h1] at h ⊢
    by_cases h2 : mod ++ colon2 ++ c ∈ ks
    · rw [if_pos h2]
      exact h2
    · rw [if_neg h2] at h ⊢
      cases hf : ks.find? (fun known => (colon2 ++ c).isSuffixOf known) with
      | some k => exact List.mem_of_find?_eq_some hf
      | none => rw [hf] at h; exact absurd rfl h

theorem extractToken_mem_known {ks : List Str} {part x : Str}
    (hx : x ∈ extractToken ks part) : x ∈ ks := by
  simp only [extractToken] at hx
  split at hx
  · exact absurd hx (by simp)
  · split at hx
    · exact absurd hx (by simp)
    · split at hx
      · rename_i hcond
        have hx' : x = resolve_type_name (trimWs part) ks := by simpa using hx
        have hne : resolve_type_name (trimWs part) ks ≠ trimWs part := by
          simp only [Bool.and_eq_true, bne_iff_ne] at hcond
          exact hcond.2
        rw [hx']
        exact resolve_type_name_mem hne
      · split at hx
        · rename_i k hk
          have hx' : x = k := by simpa using hx
          rw [hx']
          exact List.mem_of_find?_eq_some hk
        · exact absurd hx (by simp)

theorem extract_type_references_mem_known {ks : List Str} {ty x : Str}
    (hx : x ∈ extract_type_references ty ks) : x ∈ ks := by
  unfold extract_type_references at hx
  obtain ⟨part, _, hpart⟩ := List.mem_flatMap.mp hx
  exact extractToken_mem_known hpart

/-! ## The claims -/

/-- Claim C3 (corrected), counterexample to the claim as stated:
`sanitize` is not idempotent on every string.  On `"a___b"` the single
left-to-right `__`→`_` pass of `str::replace` leaves `"a__b"`, and a second
application still changes it, to `"a_b"`. -/
theorem c3_counterexample :
    sanitize_id (sanitize_id tripleUS) ≠ sanitize_id tripleUS := by decide

/-- Claim C3 (amended): the identifier sanitization function is
deterministic — `sanitize_id "crate::domain::User" = "crate_domain_User"` —
and it is idempotent on every string whose sanitized form contains no
doubled underscore (which the single `__`→`_` collapse pass can leave behind
only when the input had three or more consecutive replaced characters). -/
theorem c3_sanitize_deterministic_and_conditionally_idempotent :
    sanitize_id uFQN = sanUser ∧
    ∀ s : Str, containsSub [usc, usc] (sanitize_id s) = false →
      sanitize_id (sanitize_id s) = sanitize_id s := by
  refine ⟨by decide, ?_⟩
  intro s h
  exact sanitize_id_fix (sanitize_id_no_colon_pair s) (sanitize_id_no_dash s)
    (sanitize_id_no_punct s) h (sanitize_id_trim_fix s)

/-- Claim C3 witness: the amended idempotence at the concrete input
`"crate::domain::User"`. -/
theorem c3_witness : sanitize_id (sanitize_id uFQN) = sanitize_id uFQN :=
  c3_sanitize_deterministic_and_conditionally_idempotent.2 uFQN (by decide)

/-- Claim C9: with known set `{"crate::domain::User"}`, the candidate
`"User"` resolves to `"crate::domain::User"`: against a singleton known set,
a candidate whose simple name is the last `::`-segment of the known entry
resolves to that entry. -/
theorem c9_suffix_resolution (c k : Str)
    (h : (colon2 ++ simpleNameL c).isSuffixOf k = true) :
    resolve_type_name c [k] = k := by
  by_cases hm : c ∈ ([k] : List Str)
  · have : c = k := by simpa using hm
    rw [resolve_type_name_of_mem hm, this]
  · simp only [resolve_type_name, if_neg hm]
    have hfind : ([k] : List Str).find? (fun known =>
        (colon2 ++ simpleNameL c).isSuffixOf known || known == simpleNameL c) = some k := by
      simp [List.find?, h]
    rw [hfind]

/-- Claim C9 witness: the concrete instance of the spec,
`resolve_type_name "User" {"crate::domain::User"} = "crate::domain::User"`. -/
theorem c9_witness : resolve_type_name userTok [uFQN] = uFQN :=
  c9_suffix_resolution userTok uFQN (by decide)

/-- Claim C8: a candidate present verbatim in the known set resolves to
itself, for type names, function names (whatever the current module), and
trait names alike. -/
theorem c8_exact_resolution (n mod : Str) (ks : List Str) (m : CrateAnalysis) :
    (n ∈ ks → resolve_type_name n ks = n) ∧
    (n ∈ ks → resolve_function_name n ks mod = n) ∧
    (n ∈ m.traits.map Prod.fst → find_trait_name n m = n) :=
  ⟨fun h => resolve_type_name_of_mem h,
   fun h => resolve_function_name_of_mem mod h,
   fun h => find_trait_name_of_mem h⟩

/-- Claim C8 witness: exact resolution at concrete inputs for all three
resolvers. -/
theorem c8_witness :
    resolve_type_name uFQN [uFQN] = uFQN ∧
    resolve_function_name fFQN [fFQN] crateTok = fFQN ∧
    find_trait_name uFQN mTrait = uFQN :=
  ⟨(c8_exact_resolution uFQN crateTok [uFQN] emptyAnalysis).1 (by decide),
   (c8_exact_resolution fFQN crateTok [fFQN] emptyAnalysis).2.1 (by decide),
   (c8_exact_resolution uFQN crateTok [] mTrait).2.2 (by decide)⟩

/-- Claim C5: `analyze` replaces the relationship list wholesale with the
concatenation of the five extraction passes; the result does not depend on
the model's prior relationship list, and every other field of the model is
left unchanged. -/
theorem c5_analyze_replaces_relationships (m : CrateAnalysis) (r : List Relationship) :
    analyze { m with relationships := r } = analyze m ∧
    (analyze m).name = m.name ∧
    (analyze m).structs = m.structs ∧
    (analyze m).enums = m.enums ∧
    (analyze m).traits = m.traits ∧
    (analyze m).impls = m.impls ∧
    (analyze m).functions = m.functions ∧
    (analyze m).modules = m.modules ∧
    (analyze m).relationships =
      analyze_impl_relationships m ++ analyze_field_relationships m
      ++ analyze_call_relationships m ++ analyze_module_dependencies m
      ++ analyze_trait_inheritance m :=
  ⟨rfl, rfl, rfl, rfl, rfl, rfl, rfl, rfl, rfl⟩

/-- Claim C6: extracting type references from `"Vec<User>"` against a known
set containing an entry ending in `::User` yields exactly one reference,
a name ending in `::User` (the resolved name of `User`); `Vec` is discarded
as a standard-library name and never appears. -/
theorem c6_vec_user_extraction (knowns : List Str)
    (h : ∃ k ∈ knowns, (colon2 ++ userTok).isSuffixOf k = true) :
    ∃ u, extract_type_references vecUserS knowns = [u] ∧
      (colon2 ++ userTok).isSuffixOf u = true ∧
      vecTok ∉ extract_type_references vecUserS knowns := by
  have hsplit : splitWs (cleanTypeString vecUserS) = [vecTok, userTok] := by decide
  have hVec : extractToken knowns vecTok = [] := by
    simp only [extractToken]
    rw [show trimWs vecTok = vecTok from by decide]
    rw [if_neg (by decide : ¬(vecTok.isEmpty = true))]
    rw [if_pos (by decide : is_primitive_type vecTok = true)]
  have hUser : ∃ u, extractToken knowns userTok = [u] ∧
      (colon2 ++ userTok).isSuffixOf u = true := by
    obtain ⟨k0, hk0m, hk0s⟩ := h
    simp only [extractToken]
    rw [show trimWs userTok = userTok from by decide]
    rw [if_neg (by decide : ¬(userTok.isEmpty = true))]
    rw [if_neg (by decide : ¬(is_primitive_type userTok = true))]
    by_cases hmem : userTok ∈ knowns
    · rw [resolve_type_name_of_mem hmem]
      rw [if_neg (by simp : ¬((!userTok.isEmpty && userTok != userTok) = true))]
      have hfs : (knowns.find? (fun t => (colon2 ++ userTok).isSuffixOf t)).isSome :=
        List.find?_isSome.mpr ⟨k0, hk0m, hk0s⟩
      obtain ⟨k1, hk1⟩ := Option.isSome_iff_exists.mp hfs
      rw [hk1]
      exact ⟨k1, rfl, List.find?_some hk1⟩
    · have hres := resolve_type_name_eq userTok knowns
      rw [if_neg hmem] at hres
      cases hf : knowns.find? (fun known =>
          (colon2 ++ simpleNameL userTok).isSuffixOf known || known == simpleNameL userTok) with
      | none =>
        exfalso
        have hnone := List.find?_eq_none.mp hf k0 hk0m
        rw [show simpleNameL userTok = userTok from by decide] at hnone
        simp [hk0s] at hnone
      | some k =>
        rw [hf] at hres
        rw [hres]
        have hkm := List.mem_of_find?_eq_some hf
        have hkp := List.find?_some hf
        rw [show simpleNameL userTok = userTok from by decide] at hkp
        have hsuf : (colon2 ++ userTok).isSuffixOf k = true := by
          rcases Bool.or_eq_true_iff.mp hkp with hs | hb
          · exact hs
          · exact absurd (beq_iff_eq.mp hb ▸ hkm) hmem
        have hkne : k ≠ userTok := fun he => hmem (he ▸ hkm)
        have hknil : k ≠ [] := by
          intro he
          rw [he] at hsuf
          exact absurd hsuf (by decide)
        rw [if_pos (by
          simp only [Bool.and_eq_true, Bool.not_eq_true', bne_iff_ne]
          exact ⟨by simpa [List.isEmpty_iff] using hknil, hkne⟩)]
        exact ⟨k, rfl, hsuf⟩
  obtain ⟨u, hu, hus⟩ := hUser
  have hres : extract_type_references vecUserS knowns = [u] := by
    unfold extract_type_references
    rw [hsplit]
    simp [List.flatMap_cons, List.flatMap_nil, hVec, hu]
  refine ⟨u, hres, hus, ?_⟩
  rw [hres]
  intro hv
  have : vecTok = u := by simpa using hv
  rw [← this] at hus
  exact absurd hus (by decide)

/-- Claim C6 witness: the concrete instance with known set
`{"crate::domain::User"}`. -/
theorem c6_witness :
    ∃ u, extract_type_references vecUserS [uFQN] = [u] ∧
      (colon2 ++ userTok).isSuffixOf u = true ∧
      vecTok ∉ extract_type_references vecUserS [uFQN] :=
  c6_vec_user_extraction [uFQN] ⟨uFQN, by decide, by decide⟩

/-- Claim C1 (corrected), counterexample to the claim as stated: in the model
`mC1` the call target `g` resolves to no known function and the field type
`Qux` (not primitive) matches no known type, yet after analysis the
relationship list is empty — no Calls edge carrying `g` and no Contains edge
carrying `Qux` survives; both are dropped, not preserved. -/
theorem c1_counterexample :
    is_primitive_type quxTok = false ∧
    resolve_type_name quxTok (all_type_names mC1) = quxTok ∧
    resolve_function_name gTok (mC1.functions.map Prod.fst) crateTok = [] ∧
    (analyze mC1).relationships = [] := by decide

/-- Claim C1 (amended): an Implements edge is always emitted for an impl
block with a trait name, carrying the (possibly unresolved) trait name — it
is never dropped; by contrast a Calls edge is emitted only for a resolvable
call (every Calls edge's target is a known function key), and a field
Contains edge only for a resolvable type token (every field Contains edge's
target is a known type name). -/
theorem c1_amended_dangling_edges (m : CrateAnalysis) :
    (∀ ib ∈ m.impls, ∀ t, ib.trait_name = some t →
      ({ from_ := resolve_type_name ib.self_type (all_type_names m),
         to_ := find_trait_name t m,
         relation_type := RelationType.Implements,
         label := none } : Relationship) ∈ (analyze m).relationships) ∧
    (∀ rel ∈ analyze_call_relationships m, rel.to_ ∈ m.functions.map Prod.fst) ∧
    (∀ rel ∈ analyze_field_relationships m, rel.to_ ∈ all_type_names m) := by
  refine ⟨?_, ?_, ?_⟩
  · intro ib hib t ht
    apply List.mem_append_left
    apply List.mem_append_left
    apply List.mem_append_left
    apply List.mem_append_left
    unfold analyze_impl_relationships
    apply List.mem_flatMap.mpr
    refine ⟨ib, hib, ?_⟩
    rw [ht]
    exact List.mem_singleton.mpr rfl
  · intro rel hrel
    unfold analyze_call_relationships at hrel
    obtain ⟨p, _, hrel2⟩ := List.mem_flatMap.mp hrel
    obtain ⟨call, _, hrel3⟩ := List.mem_flatMap.mp hrel2
    split at hrel3
    · rename_i hcond
      have hrel5 : rel =
          { from_ := p.1,
            to_ := resolve_function_name call (m.functions.map Prod.fst) p.2.module_path,
            relation_type := RelationType.Calls, label := none } := by
        simpa using hrel3
      rw [hrel5]
      apply resolve_function_name_mem
      intro he
      rw [he] at hcond
      simp at hcond
    · simp at hrel3
  · intro rel hrel
    unfold analyze_field_relationships at hrel
    rcases List.mem_append.mp hrel with hs | he
    · obtain ⟨p, _, h2⟩ := List.mem_flatMap.mp hs
      obtain ⟨field, _, h3⟩ := List.mem_flatMap.mp h2
      obtain ⟨ref, href, h4⟩ := List.mem_map.mp h3
      rw [← h4]
      exact extract_type_references_mem_known href
    · obtain ⟨p, _, h2⟩ := List.mem_flatMap.mp he
      obtain ⟨v, _, h3⟩ := List.mem_flatMap.mp h2
      obtain ⟨field, _, h4⟩ := List.mem_flatMap.mp h3
      obtain ⟨ref, href, h5⟩ := List.mem_map.mp h4
      rw [← h5]
      exact extract_type_references_mem_known href

/-- Claim C1 witness: in the model `mImpl` the impl block's trait name
`Display` resolves to nothing, and the Implements edge still appears in the
analyzed relationship list carrying the unresolved names. -/
theorem c1_witness :
    ({ from_ := resolve_type_name widgetTok (all_type_names mImpl),
       to_ := find_trait_name displayTok mImpl,
       relation_type := RelationType.Implements,
       label := none } : Relationship) ∈ (analyze mImpl).relationships ∧
    resolve_type_name widgetTok (all_type_names mImpl) = widgetTok ∧
    find_trait_name displayTok mImpl = displayTok :=
  ⟨(c1_amended_dangling_edges mImpl).1 implWidget (by decide) displayTok rfl,
   by decide, by decide⟩

/-- A single clean, non-primitive token whose resolution differs from the
token itself is extracted as exactly that resolution. -/
theorem extract_type_references_single {ks : List Str} {ty bz : Str}
    (hsp : splitWs (cleanTypeString ty) = [ty])
    (hprim : is_primitive_type ty = false)
    (hres : resolve_type_name ty ks = bz)
    (hne : bz ≠ []) (hnty : bz ≠ ty) :
    extract_type_references ty ks = [bz] := by
  have hty : ty ∈ splitWs (cleanTypeString ty) := by
    rw [hsp]
    exact List.mem_singleton.mpr rfl
  have htrim : trimWs ty = ty := trimWs_splitWs_token hty
  have htne : ty ≠ [] := (splitWs_token hty).1
  unfold extract_type_references
  rw [hsp]
  simp only [List.flatMap_cons, List.flatMap_nil, List.append_nil]
  simp only [extractToken]
  rw [htrim]
  rw [if_neg (fun hc => htne (List.isEmpty_iff.mp hc))]
  rw [if_neg (by simp [hprim])]
  rw [hres]
  rw [if_pos (by
    simp only [Bool.and_eq_true, Bool.not_eq_true', bne_iff_ne]
    refine ⟨?_, hnty⟩
    rw [← Bool.not_eq_true, List.isEmpty_iff]
    exact hne)]

/-- Claim C2 (corrected), counterexample to the claim as stated: in `mC2`
the field `bar` of `crate::Foo` is written with the exact fully-qualified
known name `crate::Baz`; its type resolves (to `crate::Baz` itself, a known
type), yet the containment pass emits nothing — the `resolved != token`
guard drops an exact fully-qualified match. -/
theorem c2_counterexample :
    bazFQN ∈ all_type_names mC2 ∧
    resolve_type_name bazFQN (all_type_names mC2) = bazFQN ∧
    ({ from_ := fooFQN, to_ := bazFQN, relation_type := RelationType.Contains,
       label := some barTok } : Relationship) ∉ (analyze mC2).relationships ∧
    analyze_field_relationships mC2 = [] := by decide

/-- Claim C2 (amended): for a struct field `bar` whose written type is a
single clean token (no punctuation, whitespace, `mut`/`dyn`), is not a
primitive/std name, and resolves to a known type name distinct from the
token as written, the containment pass emits `Foo --Contains--> Baz`
labelled `"bar"`; and likewise for an enum variant field, labelled
`"V::name"` — the parser names a variant's single unnamed field `"0"`, so
`V(Baz)` is labelled `"V::0"`. -/
theorem c2_amended_containment_labels (m : CrateAnalysis) :
    (∀ fn sd, (fn, sd) ∈ m.structs → ∀ field ∈ sd.fields, ∀ bar bz,
      field.name = some bar →
      splitWs (cleanTypeString field.ty) = [field.ty] →
      is_primitive_type field.ty = false →
      resolve_type_name field.ty (all_type_names m) = bz →
      bz ≠ [] → bz ≠ field.ty →
      ({ from_ := fn, to_ := bz, relation_type := RelationType.Contains,
         label := some bar } : Relationship) ∈ analyze_field_relationships m) ∧
    (∀ en ed, (en, ed) ∈ m.enums → ∀ v ∈ ed.variants, ∀ field ∈ v.fields, ∀ nm bz,
      field.name = some nm →
      splitWs (cleanTypeString field.ty) = [field.ty] →
      is_primitive_type field.ty = false →
      resolve_type_name field.ty (all_type_names m) = bz →
      bz ≠ [] → bz ≠ field.ty →
      ({ from_ := en, to_ := bz, relation_type := RelationType.Contains,
         label := some (v.name ++ colon2 ++ nm) } : Relationship)
        ∈ analyze_field_relationships m) := by
  constructor
  · intro fn sd hmem field hf bar bz hname hsp hprim hres hne hnty
    unfold analyze_field_relationships
    apply List.mem_append_left
    apply List.mem_flatMap.mpr
    refine ⟨(fn, sd), hmem, ?_⟩
    apply List.mem_flatMap.mpr
    refine ⟨field, hf, ?_⟩
    rw [extract_type_references_single hsp hprim hres hne hnty]
    rw [show (some bar) = field.name from hname.symm]
    exact List.mem_singleton.mpr rfl
  · intro en ed hmem v hv field hf nm bz hname hsp hprim hres hne hnty
    unfold analyze_field_relationships
    apply List.mem_append_right
    apply List.mem_flatMap.mpr
    refine ⟨(en, ed), hmem, ?_⟩
    apply List.mem_flatMap.mpr
    refine ⟨v, hv, ?_⟩
    apply List.mem_flatMap.mpr
    refine ⟨field, hf, ?_⟩
    rw [extract_type_references_single hsp hprim hres hne hnty]
    rw [show nm = field.name.getD [] by rw [hname]; rfl]
    exact List.mem_singleton.mpr rfl

/-- Claim C2 witness: in `mC2W` the field `bar: Baz` of `crate::Foo` yields
`crate::Foo --Contains--> crate::Baz` labelled `"bar"`, and the parser-named
positional field `"0"` of variant `V` of `crate::E` yields an edge labelled
`"V::0"`. -/
theorem c2_witness :
    ({ from_ := fooFQN, to_ := bazFQN, relation_type := RelationType.Contains,
       label := some barTok } : Relationship) ∈ analyze_field_relationships mC2W ∧
    ({ from_ := enumFQN, to_ := bazFQN, relation_type := RelationType.Contains,
       label := some (vTok ++ colon2 ++ zeroTok) } : Relationship)
      ∈ analyze_field_relationships mC2W :=
  ⟨(c2_amended_containment_labels mC2W).1 fooFQN fooStructDef (by decide)
      barBazField (by decide) barTok bazFQN rfl (by decide) (by decide)
      (by decide) (by decide) (by decide),
   (c2_amended_containment_labels mC2W).2 enumFQN eEnumDef (by decide)
      vVariant (by decide) zeroBazField (by decide) zeroTok bazFQN rfl
      (by decide) (by decide) (by decide) (by decide) (by decide)⟩

/-! ## Helper lemmas: association-list lookup and merge -/

theorem alistLookup_append {α : Type} (a b : List (Str × α)) (k : Str) :
    alistLookup (a ++ b) k = Option.or (alistLookup b k) (alistLookup a k) := by
  induction a with
  | nil =>
    rw [List.nil_append]
    exact Option.or_none.symm
  | cons p rest ih =>
    show (match alistLookup (rest ++ b) k with
          | some v => some v
          | none => if p.1 = k then some p.2 else none)
        = Option.or (alistLookup b k) (alistLookup (p :: rest) k)
    rw [ih]
    cases hb : alistLookup b k with
    | some v => rfl
    | none =>
      rw [Option.none_or, Option.none_or]
      rfl

theorem alistLookup_isSome_mem {α : Type} {m : List (Str × α)} {k : Str}
    (h : (alistLookup m k).isSome = true) : k ∈ m.map Prod.fst := by
  induction m with
  | nil => simp [alistLookup] at h
  | cons p rest ih =>
    by_cases hr : (alistLookup rest k).isSome = true
    · exact List.mem_cons_of_mem _ (ih hr)
    · have hnone : alistLookup rest k = none := Option.not_isSome_iff_eq_none.mp hr
      have hstep : alistLookup (p :: rest) k = if p.1 = k then some p.2 else none := by
        show (match alistLookup rest k with
              | some v => some v
              | none => if p.1 = k then some p.2 else none) = _
        rw [hnone]
      rw [hstep] at h
      by_cases hpk : p.1 = k
      · simp only [List.map_cons]
        exact hpk ▸ List.mem_cons_self p.1 (rest.map Prod.fst)
      · rw [if_neg hpk] at h
        simp at h

theorem alistLookup_disjoint {α : Type} {a b : List (Str × α)}
    (hd : ∀ k ∈ a.map Prod.fst, k ∉ b.map Prod.fst) (k : Str) :
    alistLookup a k = none ∨ alistLookup b k = none := by
  by_cases ha : (alistLookup a k).isSome = true
  · by_cases hb : (alistLookup b k).isSome = true
    · exact absurd (alistLookup_isSome_mem hb) (hd k (alistLookup_isSome_mem ha))
    · exact Or.inr (Option.not_isSome_iff_eq_none.mp hb)
  · exact Or.inl (Option.not_isSome_iff_eq_none.mp ha)

theorem option_or_comm_of_none {α : Type} {x y : Option α}
    (h : x = none ∨ y = none) : Option.or x y = Option.or y x := by
  rcases h with rfl | rfl
  · rw [Option.none_or, Option.or_none]
  · rw [Option.none_or, Option.or_none]

theorem alist_merge_comm {α : Type} (a b : List (Str × α))
    (hd : ∀ k ∈ a.map Prod.fst, k ∉ b.map Prod.fst) :
    alistLookup (a ++ b) = alistLookup (b ++ a) := by
  funext k
  rw [alistLookup_append, alistLookup_append]
  exact option_or_comm_of_none ((alistLookup_disjoint hd k).symm)

theorem alist_merge_union {α : Type} (a b : List (Str × α))
    (hd : ∀ k ∈ a.map Prod.fst, k ∉ b.map Prod.fst) :
    alistLookup (a ++ b) = fun k => Option.or (alistLookup a k) (alistLookup b k) := by
  funext k
  rw [alistLookup_append]
  exact option_or_comm_of_none ((alistLookup_disjoint hd k).symm)

/-- Claim C4: merging two aggregates whose entity maps share no keys yields
the exact union of every map, the same map contents in either merge order,
and impl-block and relationship lists equal as unordered multisets. -/
theorem c4_merge_disjoint_union_comm (A B : CrateAnalysis)
    (h1 : ∀ k ∈ A.structs.map Prod.fst, k ∉ B.structs.map Prod.fst)
    (h2 : ∀ k ∈ A.enums.map Prod.fst, k ∉ B.enums.map Prod.fst)
    (h3 : ∀ k ∈ A.traits.map Prod.fst, k ∉ B.traits.map Prod.fst)
    (h4 : ∀ k ∈ A.functions.map Prod.fst, k ∉ B.functions.map Prod.fst)
    (h5 : ∀ k ∈ A.modules.map Prod.fst, k ∉ B.modules.map Prod.fst) :
    (alistLookup (merge A B).structs = alistLookup (merge B A).structs) ∧
    (alistLookup (merge A B).structs
      = fun k => Option.or (alistLookup A.structs k) (alistLookup B.structs k)) ∧
    (alistLookup (merge A B).enums = alistLookup (merge B A).enums) ∧
    (alistLookup (merge A B).enums
      = fun k => Option.or (alistLookup A.enums k) (alistLookup B.enums k)) ∧
    (alistLookup (merge A B).traits = alistLookup (merge B A).traits) ∧
    (alistLookup (merge A B).traits
      = fun k => Option.or (alistLookup A.traits k) (alistLookup B.traits k)) ∧
    (alistLookup (merge A B).functions = alistLookup (merge B A).functions) ∧
    (alistLookup (merge A B).functions
      = fun k => Option.or (alistLookup A.functions k) (alistLookup B.functions k)) ∧
    (alistLookup (merge A B).modules = alistLookup (merge B A).modules) ∧
    (alistLookup (merge A B).modules
      = fun k => Option.or (alistLookup A.modules k) (alistLookup B.modules k)) ∧
    (merge A B).impls.Perm (merge B A).impls ∧
    (merge A B).relationships.Perm (merge B A).relationships :=
  ⟨alist_merge_comm _ _ h1, alist_merge_union _ _ h1,
   alist_merge_comm _ _ h2, alist_merge_union _ _ h2,
   alist_merge_comm _ _ h3, alist_merge_union _ _ h3,
   alist_merge_comm _ _ h4, alist_merge_union _ _ h4,
   alist_merge_comm _ _ h5, alist_merge_union _ _ h5,
   List.perm_append_comm, List.perm_append_comm⟩

/-- Claim C4 witness: the merge properties at the concrete disjoint
aggregates `mC4A` and `mC4B`. -/
theorem c4_witness :
    (alistLookup (merge mC4A mC4B).structs = alistLookup (merge mC4B mC4A).structs) ∧
    (alistLookup (merge mC4A mC4B).structs
      = fun k => Option.or (alistLookup mC4A.structs k) (alistLookup mC4B.structs k)) ∧
    (merge mC4A mC4B).impls.Perm (merge mC4B mC4A).impls ∧
    (merge mC4A mC4B).relationships.Perm (merge mC4B mC4A).relationships := by
  obtain ⟨ha, hb, -, -, -, -, -, -, -, -, hc, hd⟩ :=
    c4_merge_disjoint_union_comm mC4A mC4B (by decide) (by decide) (by decide)
      (by decide) (by decide)
  exact ⟨ha, hb, hc, hd⟩

/-! ## Helper lemmas: the module diagram edge fold -/

theorem moduleDepFold_mem (mods : List Str) :
    ∀ (rels : List Relationship) (acc : List (Str × Str)) (p : Str × Str),
      p ∈ rels.foldl (moduleDepStep mods) acc →
      p ∈ acc ∨ ∃ rel ∈ rels, rel.relation_type = RelationType.DependsOn ∧
        rel.from_ ∈ mods ∧ rel.to_ ∈ mods ∧
        p = (sanitize_id rel.from_, sanitize_id rel.to_) := by
  intro rels
  induction rels with
  | nil => intro acc p h; exact Or.inl (by simpa using h)
  | cons r rs ih =>
    intro acc p h
    rw [List.foldl_cons] at h
    rcases ih (moduleDepStep mods acc r) p h with hacc | ⟨rel, hm, hrest⟩
    · unfold moduleDepStep at hacc
      split at hacc
      · rename_i hdep
        split at hacc
        · rename_i hcond
          rcases List.mem_append.mp hacc with hl | hr
          · exact Or.inl hl
          · have : p = (sanitize_id r.from_, sanitize_id r.to_) := by simpa using hr
            exact Or.inr ⟨r, List.mem_cons_self r rs, hdep, hcond.1, hcond.2.1, this⟩
        · exact Or.inl hacc
      · exact Or.inl hacc
    · exact Or.inr ⟨rel, List.mem_cons_of_mem r hm, hrest⟩

/-- Claim C7: every `-->` edge emitted in the module dependency diagram comes
from a DependsOn relationship both of whose raw endpoints are members of the
known module set; a DependsOn edge with an unknown endpoint is excluded.
Rendering is a pure function of the model (`generate_module_diagram`
returns only text), so the raw relationship list is unaffected. -/
theorem c7_module_diagram_filter (analysis : CrateAnalysis) (p : Str × Str)
    (hp : p ∈ moduleDepEdges (moduleDiagramModules analysis) analysis.relationships) :
    ∃ rel ∈ analysis.relationships,
      rel.relation_type = RelationType.DependsOn ∧
      rel.from_ ∈ moduleDiagramModules analysis ∧
      rel.to_ ∈ moduleDiagramModules analysis ∧
      p = (sanitize_id rel.from_, sanitize_id rel.to_) := by
  unfold moduleDepEdges at hp
  rcases moduleDepFold_mem _ _ _ _ hp with h | h
  · simp at h
  · exact h

/-- Claim C7 witness: in `mC7` the emitted edge between the two declared
modules is traced back to its DependsOn relationship with both endpoints in
the known module set (the edge towards the undeclared `Qux` is excluded:
`moduleDepEdges` contains only this one pair). -/
theorem c7_witness :
    ∃ rel ∈ mC7.relationships,
      rel.relation_type = RelationType.DependsOn ∧
      rel.from_ ∈ moduleDiagramModules mC7 ∧
      rel.to_ ∈ moduleDiagramModules mC7 ∧
      (sanitize_id aModPath, sanitize_id bModPath)
        = (sanitize_id rel.from_, sanitize_id rel.to_) :=
  c7_module_diagram_filter mC7 (sanitize_id aModPath, sanitize_id bModPath) (by decide)

/-! ## Helper lemmas: the C4 component relationship fold -/

/-- The three possible outcomes of one step of the C4 relationship loop:
skip (seen or self pair), emit (supported kind), or mark-seen-only
(unsupported kind — the key is recorded but no `Rel` line is produced). -/
theorem c4RelStep_cases (st : List Str × List (Str × Str × Str)) (rel : Relationship) :
    (((sanitize_id rel.from_ ++ [dashC] ++ sanitize_id rel.to_) ∈ st.1 ∨
      sanitize_id rel.from_ = sanitize_id rel.to_) ∧ c4RelStep st rel = st) ∨
    (∃ lbl, c4RelLabel rel.relation_type = some lbl ∧
      ¬((sanitize_id rel.from_ ++ [dashC] ++ sanitize_id rel.to_) ∈ st.1 ∨
        sanitize_id rel.from_ = sanitize_id rel.to_) ∧
      c4RelStep st rel =
        (st.1 ++ [sanitize_id rel.from_ ++ [dashC] ++ sanitize_id rel.to_],
         st.2 ++ [(sanitize_id rel.from_, sanitize_id rel.to_, lbl)])) ∨
    (c4RelLabel rel.relation_type = none ∧
      ¬((sanitize_id rel.from_ ++ [dashC] ++ sanitize_id rel.to_) ∈ st.1 ∨
        sanitize_id rel.from_ = sanitize_id rel.to_) ∧
      c4RelStep st rel =
        (st.1 ++ [sanitize_id rel.from_ ++ [dashC] ++ sanitize_id rel.to_], st.2)) := by
  unfold c4RelStep
  split
  · rename_i hcond
    exact Or.inl ⟨hcond, rfl⟩
  · rename_i hcond
    cases hlbl : c4RelLabel rel.relation_type with
    | some lbl => exact Or.inr (Or.inl ⟨lbl, rfl, hcond, rfl⟩)
    | none => exact Or.inr (Or.inr ⟨rfl, hcond, rfl⟩)

theorem c4RelStep_seen_subset (st : List Str × List (Str × Str × Str))
    (rel : Relationship) : ∀ k ∈ st.1, k ∈ (c4RelStep st rel).1 := by
  intro k hk
  rcases c4RelStep_cases st rel with ⟨_, heq⟩ | ⟨lbl, _, _, heq⟩ | ⟨_, _, heq⟩ <;> rw [heq]
  · exact hk
  · exact List.mem_append_left _ hk
  · exact List.mem_append_left _ hk

theorem c4fold_out_prov :
    ∀ (rels : List Relationship) (st : List Str × List (Str × Str × Str))
      (e : Str × Str × Str),
      e ∈ (rels.foldl c4RelStep st).2 →
      e ∈ st.2 ∨ ∃ rel ∈ rels,
        e.1 = sanitize_id rel.from_ ∧ e.2.1 = sanitize_id rel.to_ := by
  intro rels
  induction rels with
  | nil => intro st e h; exact Or.inl h
  | cons r rs ih =>
    intro st e h
    rw [List.foldl_cons] at h
    rcases ih (c4RelStep st r) e h with hst | ⟨rel, hm, hrest⟩
    · rcases c4RelStep_cases st r with ⟨_, heq⟩ | ⟨lbl, _, _, heq⟩ | ⟨_, _, heq⟩ <;>
        rw [heq] at hst
      · exact Or.inl hst
      · rcases List.mem_append.mp hst with hl | hr
        · exact Or.inl hl
        · have hc := List.mem_singleton.mp hr
          have h1 : e.1 = sanitize_id r.from_ := by rw [hc]
          have h2 : e.2.1 = sanitize_id r.to_ := by rw [hc]
          exact Or.inr ⟨r, List.mem_cons_self r rs, h1, h2⟩
      · exact Or.inl hst
    · exact Or.inr ⟨rel, List.mem_cons_of_mem r hm, hrest⟩

theorem c4fold_blocked (f t : Str) :
    ∀ (rels : List Relationship) (st : List Str × List (Str × Str × Str)),
      (f ++ [dashC] ++ t) ∈ st.1 →
      (∀ e ∈ st.2, ¬(e.1 = f ∧ e.2.1 = t)) →
      ∀ e ∈ (rels.foldl c4RelStep st).2, ¬(e.1 = f ∧ e.2.1 = t) := by
  intro rels
  induction rels with
  | nil => intro st _ hout e he; exact hout e he
  | cons r rs ih =>
    intro st hseen hout
    rw [List.foldl_cons]
    refine ih (c4RelStep st r) (c4RelStep_seen_subset st r _ hseen) ?_
    intro e he
    rcases c4RelStep_cases st r with ⟨_, heq⟩ | ⟨lbl, _, hcond, heq⟩ | ⟨_, _, heq⟩ <;>
      rw [heq] at he
    · exact hout e he
    · rcases List.mem_append.mp he with hl | hr
      · exact hout e hl
      · have hc := List.mem_singleton.mp hr
        have h1 : e.1 = sanitize_id r.from_ := by rw [hc]
        have h2 : e.2.1 = sanitize_id r.to_ := by rw [hc]
        rintro ⟨hf, ht⟩
        apply hcond
        apply Or.inl
        rw [h1.symm.trans hf, h2.symm.trans ht]
        exact hseen
    · exact hout e he

theorem c4fold_inv :
    ∀ (rels : List Relationship) (st : List Str × List (Str × Str × Str)),
      (∀ e ∈ st.2, (e.1 ++ [dashC] ++ e.2.1) ∈ st.1) →
      (∀ e ∈ st.2, e.1 ≠ e.2.1) →
      List.Pairwise (fun e1 e2 => ¬(e1.1 = e2.1 ∧ e1.2.1 = e2.2.1)) st.2 →
      (∀ e ∈ (rels.foldl c4RelStep st).2,
        (e.1 ++ [dashC] ++ e.2.1) ∈ (rels.foldl c4RelStep st).1) ∧
      (∀ e ∈ (rels.foldl c4RelStep st).2, e.1 ≠ e.2.1) ∧
      List.Pairwise (fun e1 e2 => ¬(e1.1 = e2.1 ∧ e1.2.1 = e2.2.1))
        (rels.foldl c4RelStep st).2 := by
  intro rels
  induction rels with
  | nil => intro st h1 h2 h3; exact ⟨h1, h2, h3⟩
  | cons r rs ih =>
    intro st h1 h2 h3
    rw [List.foldl_cons]
    rcases c4RelStep_cases st r with ⟨_, heq⟩ | ⟨lbl, hlbl, hcond, heq⟩ | ⟨hlbl, hcond, heq⟩ <;>
      rw [heq]
    · exact ih st h1 h2 h3
    · apply ih
      · intro e he
        rcases List.mem_append.mp he with hl | hr
        · exact List.mem_append_left _ (h1 e hl)
        · have hc := List.mem_singleton.mp hr
          have hk : e.1 ++ [dashC] ++ e.2.1
              = sanitize_id r.from_ ++ [dashC] ++ sanitize_id r.to_ := by rw [hc]
          rw [hk]
          exact List.mem_append_right _ (List.mem_singleton.mpr rfl)
      · intro e he
        rcases List.mem_append.mp he with hl | hr
        · exact h2 e hl
        · have hc := List.mem_singleton.mp hr
          have h1e : e.1 = sanitize_id r.from_ := by rw [hc]
          have h2e : e.2.1 = sanitize_id r.to_ := by rw [hc]
          intro hft
          exact hcond (Or.inr (h1e.symm.trans (hft.trans h2e)))
      · apply List.pairwise_append.mpr
        refine ⟨h3, List.pairwise_singleton _ _, ?_⟩
        intro e1 he1 e2 he2
        have hc := List.mem_singleton.mp he2
        have h1e : e2.1 = sanitize_id r.from_ := by rw [hc]
        have h2e : e2.2.1 = sanitize_id r.to_ := by rw [hc]
        rintro ⟨ha, hb⟩
        apply hcond
        apply Or.inl
        rw [← (ha.trans h1e), ← (hb.trans h2e)]
        exact h1 e1 he1
    · apply ih
      · intro e he
        exact List.mem_append_left _ (h1 e he)
      · exact h2
      · exact h3

/-- Claim C10: C4 component relationship emission is deduplicated by the
(sanitized from, sanitized to) endpoint pair alone — at most one `Rel` line
per pair — the pair is marked seen before the kind is inspected, self pairs
are never emitted, and an unsupported-kind relationship (Calls, DependsOn or
References) between a pair, occurring before any relationship with that
pair, suppresses every later `Rel` line for that pair. -/
theorem c10_c4_component_dedup (rels : List Relationship) :
    List.Pairwise (fun e1 e2 => ¬(e1.1 = e2.1 ∧ e1.2.1 = e2.2.1))
      (c4ComponentRels rels) ∧
    (∀ e ∈ c4ComponentRels rels, e.1 ≠ e.2.1) ∧
    (∀ pre r post, rels = pre ++ r :: post →
      (r.relation_type = RelationType.Calls ∨ r.relation_type = RelationType.DependsOn ∨
        r.relation_type = RelationType.References) →
      sanitize_id r.from_ ≠ sanitize_id r.to_ →
      (∀ r' ∈ pre, ¬(sanitize_id r'.from_ = sanitize_id r.from_ ∧
        sanitize_id r'.to_ = sanitize_id r.to_)) →
      ∀ e ∈ c4ComponentRels rels,
        ¬(e.1 = sanitize_id r.from_ ∧ e.2.1 = sanitize_id r.to_)) := by
  have hinv := c4fold_inv rels ([], []) (by simp) (by simp) (by simp)
  refine ⟨hinv.2.2, hinv.2.1, ?_⟩
  intro pre r post hsplit hkind hne hpre e he
  rw [hsplit] at he
  unfold c4ComponentRels at he
  rw [List.foldl_append, List.foldl_cons] at he
  have hout1 : ∀ e' ∈ (pre.foldl c4RelStep ([], [])).2,
      ¬(e'.1 = sanitize_id r.from_ ∧ e'.2.1 = sanitize_id r.to_) := by
    intro e' he' hc
    rcases c4fold_out_prov pre ([], []) e' he' with h0 | ⟨rel, hrm, hf, ht⟩
    · simp at h0
    · exact hpre rel hrm ⟨hf.symm.trans hc.1, ht.symm.trans hc.2⟩
  have hlab : c4RelLabel r.relation_type = none := by
    rcases hkind with h | h | h <;> rw [h] <;> rfl
  have hstep : (sanitize_id r.from_ ++ [dashC] ++ sanitize_id r.to_)
        ∈ (c4RelStep (pre.foldl c4RelStep ([], [])) r).1 ∧
      ∀ e' ∈ (c4RelStep (pre.foldl c4RelStep ([], [])) r).2,
        ¬(e'.1 = sanitize_id r.from_ ∧ e'.2.1 = sanitize_id r.to_) := by
    rcases c4RelStep_cases (pre.foldl c4RelStep ([], [])) r with
      ⟨hcond0, heq⟩ | ⟨lbl, hlbl, _, heq⟩ | ⟨_, hcond, heq⟩ <;> rw [heq]
    · rcases hcond0 with hk | hft
      · exact ⟨hk, hout1⟩
      · exact absurd hft hne
    · rw [hlab] at hlbl
      exact absurd hlbl (by simp)
    · exact ⟨List.mem_append_right _ (List.mem_singleton.mpr rfl), hout1⟩
  exact c4fold_blocked (sanitize_id r.from_) (sanitize_id r.to_) post _
    hstep.1 hstep.2 e he

/-- Claim C10 witness: with a Calls edge between the pair (a, b) preceding
an Implements edge between the same pair, no `Rel` line for that pair is
emitted at all. -/
theorem c10_witness :
    ∀ e ∈ c4ComponentRels [c10Rel1, c10Rel2],
      ¬(e.1 = sanitize_id c10Rel1.from_ ∧ e.2.1 = sanitize_id c10Rel1.to_) :=
  (c10_c4_component_dedup [c10Rel1, c10Rel2]).2.2 [] c10Rel1 [c10Rel2] rfl
    (Or.inl rfl) (by decide) (by simp)
